import Mathlib

/-!
# Verification of the Hangar TUI core services

A shallow embedding of the parts of `hangar_tui` that the specification's
claims are about:

* `services/claude_config.py` — the Markdown section `parse_claude_md` /
  `save_claude_md` pair together with `update_section` / `delete_section`;
* `services/todos.py` and `models.py` — `load_todos`, `Todo.from_dict`,
  `Todo.cycle_status`.

Python strings are modelled as `List Char` (`Str`).  `str.split("\n")`,
`"\n".join`, and `str.strip()` are embedded as `splitNl`, `joinNl`, and
`strip`.  Python's `\s` class (and the set stripped by `str.strip()`) is
modelled by `isWs`, covering the six ASCII whitespace characters; the
claims under study never exercise non-ASCII whitespace.
-/

namespace Hangar

/-- Python `str` as a character list. -/
abbrev Str := List Char

/-- The ASCII whitespace characters matched by Python's `\s` and stripped by
`str.strip()`. -/
def isWs (c : Char) : Bool :=
  c == ' ' || c == '\t' || c == '\n' || c == '\r' || c == '\x0b' || c == '\x0c'

/-- Python `str.lstrip()` (whitespace variant). -/
def lstrip (s : Str) : Str := s.dropWhile isWs

/-- Python `str.rstrip()` (whitespace variant). -/
def rstrip (s : Str) : Str := (s.reverse.dropWhile isWs).reverse

/-- Python `str.strip()`. -/
def strip (s : Str) : Str := rstrip (lstrip s)

/-- Python `text.split("\n")`: always returns one more part than there are
newlines, so `splitNl [] = [[]]`. -/
def splitNl : Str → List Str
  | [] => [[]]
  | c :: cs =>
    let r := splitNl cs
    if c = '\n' then [] :: r
    else (c :: r.headD []) :: r.tail

/-- Python `"\n".join(lines)`. -/
def joinNl : List Str → Str
  | [] => []
  | [l] => l
  | l :: l2 :: ls => l ++ '\n' :: joinNl (l2 :: ls)

theorem splitNl_ne_nil (s : Str) : splitNl s ≠ [] := by
  cases s with
  | nil => simp [splitNl]
  | cons c cs =>
    by_cases h : c = '\n' <;> simp [splitNl, h]

theorem splitNl_cons_nl (cs : Str) : splitNl ('\n' :: cs) = [] :: splitNl cs := by
  simp [splitNl]

theorem splitNl_cons_of_ne (c : Char) (cs : Str) (h : c ≠ '\n') :
    splitNl (c :: cs) = (c :: (splitNl cs).headD []) :: (splitNl cs).tail := by
  simp [splitNl, h]

/-- Splitting distributes over a newline in the middle. -/
theorem splitNl_append_nl (a b : Str) :
    splitNl (a ++ '\n' :: b) = splitNl a ++ splitNl b := by
  induction a with
  | nil => simp [splitNl_cons_nl, splitNl]
  | cons c a ih =>
    by_cases h : c = '\n'
    · subst h
      simp [splitNl_cons_nl, ih]
    · obtain ⟨l, ls, hls⟩ := List.exists_cons_of_ne_nil (splitNl_ne_nil a)
      simp [splitNl_cons_of_ne _ _ h, ih, hls]

/-- A newline-free string splits into a single line. -/
theorem splitNl_nlFree (a : Str) (h : '\n' ∉ a) : splitNl a = [a] := by
  induction a with
  | nil => simp [splitNl]
  | cons c a ih =>
    simp only [List.mem_cons, not_or] at h
    rw [splitNl_cons_of_ne c a (fun hc => h.1 hc.symm), ih h.2]
    simp

/-- `join` is a left inverse of `split`. -/
theorem joinNl_splitNl (s : Str) : joinNl (splitNl s) = s := by
  induction s with
  | nil => simp [splitNl, joinNl]
  | cons c cs ih =>
    obtain ⟨l, ls, hls⟩ := List.exists_cons_of_ne_nil (splitNl_ne_nil cs)
    by_cases h : c = '\n'
    · subst h
      rw [splitNl_cons_nl, hls]
      rw [hls] at ih
      cases ls with
      | nil =>
        simp [joinNl] at ih ⊢
        exact ih
      | cons m ms =>
        simp [joinNl] at ih ⊢
        exact ih
    · rw [splitNl_cons_of_ne _ _ h, hls]
      rw [hls] at ih
      cases ls with
      | nil =>
        simp [joinNl] at ih ⊢
        exact ih
      | cons m ms =>
        simp [joinNl] at ih ⊢
        exact ih

/-- Every line produced by `splitNl` is newline-free. -/
theorem splitNl_mem_nlFree (s : Str) : ∀ l ∈ splitNl s, '\n' ∉ l := by
  induction s with
  | nil => simp [splitNl]
  | cons c cs ih =>
    obtain ⟨l, ls, hls⟩ := List.exists_cons_of_ne_nil (splitNl_ne_nil cs)
    by_cases h : c = '\n'
    · subst h
      rw [splitNl_cons_nl]
      intro m hm
      rcases List.mem_cons.mp hm with rfl | hm
      · simp
      · exact ih m hm
    · rw [splitNl_cons_of_ne _ _ h, hls]
      intro m hm
      rcases List.mem_cons.mp hm with rfl | hm
      · intro hmem
        rcases List.mem_cons.mp hmem with rfl | hmem
        · exact h rfl
        · exact ih l (by simp [hls]) hmem
      · exact ih m (by rw [hls]; exact List.mem_cons_of_mem _ hm)

theorem joinNl_cons (l : Str) (ls : List Str) (h : ls ≠ []) :
    joinNl (l :: ls) = l ++ '\n' :: joinNl ls := by
  cases ls with
  | nil => exact absurd rfl h
  | cons m ms => simp [joinNl]

theorem joinNl_append (la lb : List Str) (ha : la ≠ []) (hb : lb ≠ []) :
    joinNl (la ++ lb) = joinNl la ++ '\n' :: joinNl lb := by
  induction la with
  | nil => exact absurd rfl ha
  | cons l la ih =>
    cases la with
    | nil => simp [joinNl_cons l lb hb, joinNl]
    | cons m ms =>
      rw [List.cons_append, joinNl_cons l ((m :: ms) ++ lb) (by simp),
        joinNl_cons l (m :: ms) (by simp), ih (by simp)]
      simp

theorem dropWhile_idem (p : Char → Bool) (l : Str) :
    (l.dropWhile p).dropWhile p = l.dropWhile p := by
  induction l with
  | nil => simp
  | cons c l ih =>
    by_cases h : p c
    · simp [List.dropWhile_cons, h, ih]
    · simp [List.dropWhile_cons, h]

theorem strip_nil : strip [] = [] := rfl

theorem lstrip_cons_ws (c : Char) (s : Str) (h : isWs c = true) :
    lstrip (c :: s) = lstrip s := by
  simp [lstrip, List.dropWhile_cons, h]

theorem lstrip_cons_not_ws (c : Char) (s : Str) (h : isWs c = false) :
    lstrip (c :: s) = c :: s := by
  simp [lstrip, List.dropWhile_cons, h]

theorem rstrip_append_ws (s : Str) (c : Char) (h : isWs c = true) :
    rstrip (s ++ [c]) = rstrip s := by
  simp [rstrip, List.dropWhile_cons, h]

theorem strip_cons_ws (c : Char) (s : Str) (h : isWs c = true) :
    strip (c :: s) = strip s := by
  simp [strip, lstrip_cons_ws c s h]

theorem strip_append_ws (s : Str) (c : Char) (h : isWs c = true) :
    strip (s ++ [c]) = strip s := by
  induction s with
  | nil => rw [List.nil_append, strip_cons_ws c [] h]
  | cons d s ih =>
    by_cases hd : isWs d
    · rw [List.cons_append, strip_cons_ws d _ hd, strip_cons_ws d s hd, ih]
    · rw [List.cons_append, strip, lstrip_cons_not_ws d _ (by simpa using hd),
        strip, lstrip_cons_not_ws d s (by simpa using hd)]
      rw [show d :: (s ++ [c]) = (d :: s) ++ [c] by simp]
      exact rstrip_append_ws (d :: s) c h

theorem strip_lstrip (s : Str) : strip (lstrip s) = strip s := by
  simp [strip, lstrip, dropWhile_idem]

theorem lstrip_all_ws (s : Str) (h : ∀ c ∈ s, isWs c = true) : lstrip s = [] := by
  simp [lstrip, List.dropWhile_eq_nil_iff]
  exact h

theorem strip_all_ws (s : Str) (h : ∀ c ∈ s, isWs c = true) : strip s = [] := by
  simp [strip, lstrip_all_ws s h, rstrip]

theorem rstrip_idem (s : Str) : rstrip (rstrip s) = rstrip s := by
  simp [rstrip, dropWhile_idem]

/-- `rstrip` shortens a list from the right only. -/
theorem rstrip_prefixOf (s : Str) : rstrip s <+: s := by
  have h : (s.reverse.dropWhile isWs) <:+ s.reverse := List.dropWhile_suffix isWs
  obtain ⟨t, ht⟩ := h
  exact ⟨t.reverse, by rw [rstrip, ← List.reverse_append, ht, List.reverse_reverse]⟩

theorem lstrip_head_not_ws (s : Str) (c : Char) (u : Str) (h : lstrip s = c :: u) :
    isWs c = false := by
  induction s with
  | nil => simp [lstrip] at h
  | cons d s ih =>
    by_cases hd : isWs d
    · exact ih (by rwa [lstrip_cons_ws d s hd] at h)
    · rw [lstrip_cons_not_ws d s (by simpa using hd)] at h
      cases h
      simpa using hd

theorem strip_idem (s : Str) : strip (strip s) = strip s := by
  rcases hl : lstrip s with _ | ⟨c, u⟩
  · show rstrip (lstrip (rstrip (lstrip s))) = rstrip (lstrip s)
    rw [hl]
    rfl
  · have hc : isWs c = false := lstrip_head_not_ws s c u hl
    have hs : strip s = rstrip (c :: u) := by rw [strip, hl]
    rcases hr : rstrip (c :: u) with _ | ⟨d, v⟩
    · simp [hs, hr, strip_nil]
    · have hpre : rstrip (c :: u) <+: c :: u := rstrip_prefixOf (c :: u)
      rw [hr] at hpre
      obtain ⟨t, ht⟩ := hpre
      have hdc : d = c := by
        have := ht
        simp only [List.cons_append] at this
        exact (List.cons.injEq d (v ++ t) c u).mp this |>.1
      subst hdc
      rw [hs, hr, strip, lstrip_cons_not_ws d v hc, ← hr, rstrip_idem]

/-!
## The header regex

`parse_claude_md` classifies a line with `re.match(r'^(#{1,6})\s+(.+)$', line)`.
We embed that regex as a small backtracking matcher, faithful to Python's
leftmost-greedy semantics: `#{1,6}` is tried greedily from the longest run of
leading `#`s (capped at 6) downwards, `\s+` greedily from the longest
whitespace run downwards, and `(.+)$` requires at least one remaining
character, with `.` excluding `'\n'` and `$` also accepting a position just
before a single trailing newline.
-/

/-- The regex fragment `(.+)$`: matches the whole of `s` (group = `s`), or all
of `s` but a trailing newline. -/
def dotPlusDollar (s : Str) : Option Str :=
  if s ≠ [] ∧ ∀ c ∈ s, c ≠ '\n' then some s
  else if s.getLast? = some '\n' ∧ s.dropLast ≠ [] ∧ ∀ c ∈ s.dropLast, c ≠ '\n' then
    some s.dropLast
  else none

/-- Backtracking for `\s+(.+)$`: try a whitespace run of length `k`, then
`k - 1`, …, down to `1`. -/
def tryWs (s : Str) : Nat → Option Str
  | 0 => none
  | k + 1 =>
    match dotPlusDollar (s.drop (k + 1)) with
    | some g => some g
    | none => tryWs s k

/-- Match `\s+(.+)$` against `s`, returning the `(.+)` group. -/
def wsThenRest (s : Str) : Option Str := tryWs s (s.takeWhile isWs).length

/-- Backtracking for `(#{1,6})`: try `n` leading hashes, then `n - 1`, …,
down to `1`; for each, the rest of the line must match `\s+(.+)$`. -/
def tryHash (line : Str) : Nat → Option (Nat × Str)
  | 0 => none
  | n + 1 =>
    match wsThenRest (line.drop (n + 1)) with
    | some g => some (n + 1, g)
    | none => tryHash line n

/-- Length of the run of leading `#` characters. -/
def hashRun (s : Str) : Nat := (s.takeWhile (fun c => c == '#')).length

/-- `re.match(r'^(#{1,6})\s+(.+)$', line)`, returning
`(len(group(1)), group(2))`. -/
def matchHeaderLine (line : Str) : Option (Nat × Str) :=
  tryHash line (min (hashRun line) 6)

/-- The header data the parser extracts from a line: the level
`len(match.group(1))` and the title `match.group(2).strip()`. -/
def headerOf (line : Str) : Option (Nat × Str) :=
  (matchHeaderLine line).map (fun p => (p.1, strip p.2))

/-- Reference form of the header test: 1–6 leading `#`s followed by a
whitespace character and at least one further character of any kind. -/
def isHeaderCheck (line : Str) : Bool :=
  decide (1 ≤ hashRun line) && decide (hashRun line ≤ 6) &&
    (match line.drop (hashRun line) with
     | c :: _ :: _ => isWs c
     | _ => false)

theorem dotPlusDollar_nlFree (s : Str) (h : ∀ c ∈ s, c ≠ '\n') :
    dotPlusDollar s = if s = [] then none else some s := by
  by_cases hs : s = []
  · subst hs
    simp [dotPlusDollar]
  · rw [dotPlusDollar, if_pos ⟨hs, h⟩, if_neg hs]

theorem tryWs_nlFree (s : Str) (h : ∀ c ∈ s, c ≠ '\n') : ∀ k : Nat,
    tryWs s k =
      if 1 ≤ k ∧ 2 ≤ s.length then some (s.drop (min k (s.length - 1))) else none := by
  intro k
  induction k with
  | zero => simp [tryWs]
  | succ k ih =>
    have hdrop : ∀ j : Nat, ∀ c ∈ s.drop j, c ≠ '\n' :=
      fun j c hc => h c (List.drop_subset j s hc)
    rw [tryWs, dotPlusDollar_nlFree _ (hdrop (k + 1))]
    by_cases hk : s.drop (k + 1) = []
    · rw [if_pos hk]
      have hlen : s.length ≤ k + 1 := List.drop_eq_nil_iff.mp hk
      rw [ih]
      by_cases h2 : 2 ≤ s.length
      · have hk1 : 1 ≤ k := by omega
        have hmin : min k (s.length - 1) = s.length - 1 := by omega
        have hmin' : min (k + 1) (s.length - 1) = s.length - 1 := by omega
        simp [hk1, h2, hmin, hmin']
      · simp [h2]
    · rw [if_neg hk]
      have hlen : k + 1 < s.length := by
        by_contra hc
        exact hk (List.drop_eq_nil_iff.mpr (by omega))
      have h2 : 2 ≤ s.length := by omega
      have hmin : min (k + 1) (s.length - 1) = k + 1 := by omega
      simp [h2, hmin]

theorem wsThenRest_not_ws (c : Char) (rest : Str) (h : isWs c = false) :
    wsThenRest (c :: rest) = none := by
  simp [wsThenRest, List.takeWhile_cons, h, tryWs]

theorem tryHash_none_of_hash (line : Str) :
    ∀ k : Nat, (∀ j : Nat, 1 ≤ j → j ≤ k → ∃ rest, line.drop j = '#' :: rest) →
      tryHash line k = none := by
  intro k
  induction k with
  | zero => simp [tryHash]
  | succ k ih =>
    intro hj
    obtain ⟨rest, hrest⟩ := hj (k + 1) (by omega) (by omega)
    rw [tryHash, hrest, wsThenRest_not_ws '#' rest (by decide)]
    exact ih (fun j h1 h2 => hj j h1 (by omega))

theorem drop_lt_hashRun (line : Str) :
    ∀ j : Nat, j < hashRun line → ∃ rest, line.drop j = '#' :: rest := by
  induction line with
  | nil => intro j hj; simp [hashRun] at hj
  | cons c cs ih =>
    intro j hj
    by_cases hc : c = '#'
    · subst hc
      cases j with
      | zero => exact ⟨cs, rfl⟩
      | succ j =>
        rw [hashRun, List.takeWhile_cons] at hj
        simp only [show ('#' == '#') = true from rfl, if_true, List.length_cons] at hj
        exact ih j (by rw [hashRun]; omega)
    · rw [hashRun, List.takeWhile_cons] at hj
      simp [hc] at hj

theorem hashRun_le_length (line : Str) : hashRun line ≤ line.length :=
  List.Sublist.length_le (List.takeWhile_sublist _)

/-- `drop` past the `takeWhile` block is `dropWhile`. -/
theorem drop_length_takeWhile (p : Char → Bool) (s : Str) :
    s.drop (s.takeWhile p).length = s.dropWhile p := by
  induction s with
  | nil => simp
  | cons c s ih =>
    by_cases h : p c
    · simp [List.takeWhile_cons, List.dropWhile_cons, h, ih]
    · simp [List.takeWhile_cons, List.dropWhile_cons, h]

theorem wsThenRest_eval (s : Str) (hnl : ∀ c ∈ s, c ≠ '\n') :
    wsThenRest s =
      if 1 ≤ (s.takeWhile isWs).length ∧ 2 ≤ s.length then
        some (s.drop (min (s.takeWhile isWs).length (s.length - 1)))
      else none := by
  rw [wsThenRest, tryWs_nlFree s hnl]

theorem wsThenRest_strip (s : Str) (hnl : ∀ c ∈ s, c ≠ '\n')
    (h1 : 1 ≤ (s.takeWhile isWs).length) (h2 : 2 ≤ s.length) :
    ∃ g, wsThenRest s = some g ∧ strip g = strip s := by
  rw [wsThenRest_eval s hnl, if_pos ⟨h1, h2⟩]
  refine ⟨_, rfl, ?_⟩
  by_cases hcase : (s.takeWhile isWs).length ≤ s.length - 1
  · rw [min_eq_left hcase, drop_length_takeWhile]
    exact strip_lstrip s
  · have hwle : (s.takeWhile isWs).length ≤ s.length :=
      List.Sublist.length_le (List.takeWhile_sublist _)
    have hweq : (s.takeWhile isWs).length = s.length := by omega
    have hall : ∀ c ∈ s, isWs c = true :=
      List.takeWhile_eq_self_iff.mp (( List.takeWhile_prefix isWs).eq_of_length hweq)
    rw [strip_all_ws s hall,
      strip_all_ws _ (fun c hc => hall c (List.drop_subset _ s hc))]

theorem tryHash_succ (line : Str) (m : Nat) :
    tryHash line (m + 1) =
      match wsThenRest (line.drop (m + 1)) with
      | some g => some (m + 1, g)
      | none => tryHash line m := rfl

/-- The parser's header test, on a newline-free line, returns exactly: level =
number of leading `#`s (when between 1 and 6 and followed by a whitespace
character and at least one further character) and title = the rest of the
line after the `#`s, stripped. -/
theorem headerOf_eq (line : Str) (hnl : '\n' ∉ line) :
    headerOf line =
      if isHeaderCheck line then some (hashRun line, strip (line.drop (hashRun line)))
      else none := by
  have hnl' : ∀ c ∈ line, c ≠ '\n' := fun c hc he => hnl (he ▸ hc)
  rcases Nat.lt_or_ge (hashRun line) 7 with h7 | h7
  · rcases Nat.eq_zero_or_pos (hashRun line) with h0 | h1
    · rw [headerOf, matchHeaderLine, h0]
      simp [tryHash, isHeaderCheck, h0]
    · have hmin : min (hashRun line) 6 = hashRun line := by omega
      obtain ⟨m, hm⟩ : ∃ m, hashRun line = m + 1 := ⟨hashRun line - 1, by omega⟩
      have hsnl : ∀ c ∈ line.drop (hashRun line), c ≠ '\n' :=
        fun c hc => hnl' c (List.drop_subset _ line hc)
      by_cases hcond : 1 ≤ ((line.drop (hashRun line)).takeWhile isWs).length ∧
          2 ≤ (line.drop (hashRun line)).length
      · obtain ⟨g, hg, hgs⟩ := wsThenRest_strip _ hsnl hcond.1 hcond.2
        have hmatch : matchHeaderLine line = some (hashRun line, g) := by
          rw [matchHeaderLine, hmin, hm, tryHash_succ, ← hm, hg]
        have hcheck : isHeaderCheck line = true := by
          rcases hdrop : line.drop (hashRun line) with _ | ⟨c, t⟩
          · rw [hdrop] at hcond; simp at hcond
          · rcases t with _ | ⟨d, t⟩
            · rw [hdrop] at hcond; simp at hcond
            · have hcws : isWs c = true := by
                by_contra hcws
                rw [hdrop, List.takeWhile_cons,
                  if_neg (by simpa using hcws)] at hcond
                simp at hcond
              rw [isHeaderCheck, hdrop]
              show (decide (1 ≤ hashRun line) && decide (hashRun line ≤ 6) &&
                isWs c) = true
              simp only [Bool.and_eq_true, decide_eq_true_eq]
              exact ⟨⟨h1, by omega⟩, hcws⟩
        rw [headerOf, hmatch, if_pos hcheck]
        simp [hgs]
      · have hnone : wsThenRest (line.drop (hashRun line)) = none := by
          rw [wsThenRest_eval _ hsnl, if_neg hcond]
        have hmatch : matchHeaderLine line = none := by
          rw [matchHeaderLine, hmin, hm, tryHash_succ, ← hm, hnone]
          exact tryHash_none_of_hash line m
            (fun j hj1 hj2 => drop_lt_hashRun line j (by omega))
        have hcheck : ¬ isHeaderCheck line = true := by
          intro hck
          rw [isHeaderCheck] at hck
          rcases hdrop : line.drop (hashRun line) with _ | ⟨c, t⟩
          · rw [hdrop] at hck; simp at hck
          · rcases t with _ | ⟨d, t⟩
            · rw [hdrop] at hck; simp at hck
            · rw [hdrop] at hck
              simp only [Bool.and_eq_true, decide_eq_true_eq] at hck
              exact hcond ⟨by
                  rw [hdrop, List.takeWhile_cons, if_pos hck.2]
                  simp, by rw [hdrop]; simp [Nat.succ_le_succ, Nat.le_add_left]⟩
        rw [headerOf, hmatch, if_neg hcheck]
        rfl
  · have hmin : min (hashRun line) 6 = 6 := by omega
    have hmatch : matchHeaderLine line = none := by
      rw [matchHeaderLine, hmin]
      exact tryHash_none_of_hash line 6
        (fun j hj1 hj2 => drop_lt_hashRun line j (by omega))
    have hcheck : ¬ isHeaderCheck line = true := by
      rw [isHeaderCheck]
      simp only [Bool.and_eq_true, decide_eq_true_eq]
      intro hck
      omega
    rw [headerOf, hmatch, if_neg hcheck]
    rfl

/-!
## `services/claude_config.py`

`parse_claude_md` is embedded at the level of the text it reads (the
`path.exists()` guard and `path.read_text()` are I/O; a missing file is the
same as parsing nothing and is not modelled separately).  `save_claude_md`
is embedded as the content string it writes; its `try/except` returns
`False` only on filesystem failure, which has no pure counterpart.
-/

/-- A section in CLAUDE.md (dataclass `ConfigSection`). -/
structure ConfigSection where
  title : Str
  content : Str
  level : Nat
deriving DecidableEq, Repr

/-- `ConfigSection.to_markdown`: `f"{'#' * level} {title}\n\n{content}"`. -/
def ConfigSection.to_markdown (s : ConfigSection) : Str :=
  List.replicate s.level '#' ++ ' ' :: (s.title ++ '\n' :: '\n' :: s.content)

/-- The loop state of `parse_claude_md`: `preamble_lines`, `sections`,
`current_section` (its title and level), `current_content`. -/
structure ParseState where
  preamble_lines : List Str
  sections : List ConfigSection
  current : Option (Str × Nat)
  current_content : List Str

/-- Closing a section: `current_section.content = "\n".join(current_content).strip()`. -/
def closeSection (t : Str) (lvl : Nat) (content_lines : List Str) : ConfigSection :=
  ⟨t, strip (joinNl content_lines), lvl⟩

/-- One iteration of the `for line in lines` loop of `parse_claude_md`. -/
def stepLine (st : ParseState) (line : Str) : ParseState :=
  match headerOf line with
  | some (lvl, title) =>
    match st.current with
    | some (t, l) =>
      { preamble_lines := st.preamble_lines
        sections := st.sections ++ [closeSection t l st.current_content]
        current := some (title, lvl)
        current_content := [] }
    | none =>
      { st with current := some (title, lvl), current_content := [] }
  | none =>
    match st.current with
    | none => { st with preamble_lines := st.preamble_lines ++ [line] }
    | some _ => { st with current_content := st.current_content ++ [line] }

/-- The epilogue of `parse_claude_md`: close the last open section and strip
the joined preamble lines. -/
def finishParse (st : ParseState) : Str × List ConfigSection :=
  (strip (joinNl st.preamble_lines),
    match st.current with
    | some (t, l) => st.sections ++ [closeSection t l st.current_content]
    | none => st.sections)

/-- `parse_claude_md` on the text of the file. -/
def parse_claude_md (text : Str) : Str × List ConfigSection :=
  finishParse ((splitNl text).foldl stepLine ⟨[], [], none, []⟩)

/-- `"\n\n".join(parts)`. -/
def joinBlocks : List Str → Str
  | [] => []
  | [q] => q
  | q :: q2 :: qs => q ++ '\n' :: '\n' :: joinBlocks (q2 :: qs)

/-- `save_claude_md`, as the content string it writes:
preamble (if truthy), then each section's markdown, joined by blank lines,
plus a trailing newline. -/
def save_claude_md (preamble : Str) (sections : List ConfigSection) : Str :=
  joinBlocks ((if preamble ≠ [] then [preamble] else []) ++
    sections.map ConfigSection.to_markdown) ++ ['\n']

/-- Placeholder section used only to state `List.getD`; never reached when
the index is in range. -/
def dummySection : ConfigSection := ⟨[], [], 0⟩

/-- `update_section`: re-parse the stored text, and when `0 <= index <
len(sections)` overwrite the indexed section's title and content and save;
otherwise return `False` leaving the text unchanged.  The pair is the
stored text afterwards and the returned boolean (write success assumed). -/
def update_section (text : Str) (index : Int) (title content : Str) :
    Str × Bool :=
  let pr := parse_claude_md text
  if 0 ≤ index ∧ index < (pr.2.length : Int) then
    (save_claude_md pr.1
      (pr.2.set index.toNat
        { pr.2.getD index.toNat dummySection with title := title, content := content }),
      true)
  else (text, false)

/-- `delete_section`: like `update_section` but `sections.pop(index)`. -/
def delete_section (text : Str) (index : Int) : Str × Bool :=
  let pr := parse_claude_md text
  if 0 ≤ index ∧ index < (pr.2.length : Int) then
    (save_claude_md pr.1 (pr.2.eraseIdx index.toNat), true)
  else (text, false)

/-!
## Reference parser

A spec-side reformulation of `parse_claude_md` used to state and prove the
claims: the preamble is the run of non-header lines before the first header,
joined and stripped; each section owns the run of non-header lines after its
header line.
-/

/-- A line the parser does not treat as a header. -/
def notHeader (l : Str) : Bool := (headerOf l).isNone

theorem dropWhile_length_le (p : Str → Bool) (l : List Str) :
    (l.dropWhile p).length ≤ l.length :=
  List.Sublist.length_le (List.dropWhile_sublist _)

/-- Modelled from the spec (§4.1): group the lines after the first header
into sections, one per header line. -/
def refSections : List Str → List ConfigSection
  | [] => []
  | h :: rest =>
    match headerOf h with
    | some (lvl, title) =>
      closeSection title lvl (rest.takeWhile notHeader) ::
        refSections (rest.dropWhile notHeader)
    | none => refSections rest
termination_by lines => lines.length
decreasing_by
  · simp only [List.length_cons]
    exact Nat.lt_succ_of_le (dropWhile_length_le notHeader rest)
  · simp

/-- Modelled from the spec (§4.1): preamble then sections. -/
def refParse (lines : List Str) : Str × List ConfigSection :=
  (strip (joinNl (lines.takeWhile notHeader)),
    refSections (lines.dropWhile notHeader))

theorem refSections_nil : refSections [] = [] := by
  rw [refSections]

theorem foldl_sec (lines : List Str) : ∀ (pres : List Str)
    (secs : List ConfigSection) (t : Str) (l : Nat) (cont : List Str),
    finishParse (lines.foldl stepLine ⟨pres, secs, some (t, l), cont⟩)
      = (strip (joinNl pres),
        secs ++ closeSection t l (cont ++ lines.takeWhile notHeader) ::
          refSections (lines.dropWhile notHeader)) := by
  induction lines with
  | nil => intro pres secs t l cont; simp [finishParse, refSections_nil]
  | cons x rest ih =>
    intro pres secs t l cont
    rcases hx : headerOf x with _ | ⟨lvl, title⟩
    · have hnh : notHeader x = true := by simp [notHeader, hx]
      rw [List.foldl_cons,
        show stepLine ⟨pres, secs, some (t, l), cont⟩ x
          = ⟨pres, secs, some (t, l), cont ++ [x]⟩ by simp [stepLine, hx],
        ih pres secs t l (cont ++ [x]),
        List.takeWhile_cons_of_pos hnh, List.dropWhile_cons_of_pos hnh]
      simp
    · have hnh : notHeader x = false := by simp [notHeader, hx]
      rw [List.foldl_cons,
        show stepLine ⟨pres, secs, some (t, l), cont⟩ x
          = ⟨pres, secs ++ [closeSection t l cont], some (title, lvl), []⟩ by
            simp [stepLine, hx],
        ih pres (secs ++ [closeSection t l cont]) title lvl [],
        List.takeWhile_cons_of_neg (by simp [hnh]),
        List.dropWhile_cons_of_neg (by simp [hnh])]
      rw [refSections]
      simp [hx]

theorem foldl_pre (lines : List Str) : ∀ pres : List Str,
    finishParse (lines.foldl stepLine ⟨pres, [], none, []⟩)
      = (strip (joinNl (pres ++ lines.takeWhile notHeader)),
        refSections (lines.dropWhile notHeader)) := by
  induction lines with
  | nil => intro pres; simp [finishParse, refSections_nil]
  | cons x rest ih =>
    intro pres
    rcases hx : headerOf x with _ | ⟨lvl, title⟩
    · have hnh : notHeader x = true := by simp [notHeader, hx]
      rw [List.foldl_cons,
        show stepLine ⟨pres, [], none, []⟩ x = ⟨pres ++ [x], [], none, []⟩ by
          simp [stepLine, hx],
        ih (pres ++ [x]),
        List.takeWhile_cons_of_pos hnh, List.dropWhile_cons_of_pos hnh]
      simp
    · have hnh : notHeader x = false := by simp [notHeader, hx]
      rw [List.foldl_cons,
        show stepLine ⟨pres, [], none, []⟩ x = ⟨pres, [], some (title, lvl), []⟩ by
          simp [stepLine, hx],
        foldl_sec rest pres [] title lvl [],
        List.takeWhile_cons_of_neg (by simp [hnh]),
        List.dropWhile_cons_of_neg (by simp [hnh])]
      rw [refSections]
      simp [hx]

/-- The loop of `parse_claude_md` computes exactly the reference parse. -/
theorem parse_refParse (text : Str) :
    parse_claude_md text = refParse (splitNl text) := by
  rw [parse_claude_md, refParse, foldl_pre]
  simp

/-!
## `models.py` and `services/todos.py`

JSON values are modelled by `Json`; a project's stored record by
`FileState` (missing file, unreadable file, invalid JSON text, or a parsed
JSON value).  `load_todos` either returns a task list or raises: its
`except` clause catches only `json.JSONDecodeError`, `KeyError` and
`IOError`, so a `ValueError` from `TodoStatus(...)` — or a `TypeError` /
`AttributeError` from a record of the wrong shape — propagates
(`LoadOutcome.raises`).
-/

/-- A parsed JSON value. -/
inductive Json where
  | null
  | bool (b : Bool)
  | num (n : Int)
  | str (s : String)
  | arr (elems : List Json)
  | obj (fields : List (String × Json))

/-- Python `dict.get(key)` on a parsed JSON object. -/
def pyGet (fields : List (String × Json)) (k : String) : Option Json :=
  (fields.find? (fun kv => kv.1 == k)).map (fun kv => kv.2)

/-- `TodoStatus` (`str` enum). -/
inductive TodoStatus where
  | pending
  | in_progress
  | completed
deriving DecidableEq, Repr

/-- `TodoStatus(value)`: enum lookup by value; `none` models the
`ValueError` raised for any value that is not one of the three members. -/
def TodoStatus.ofValue : Json → Option TodoStatus
  | .str ("pending") => some .pending
  | .str ("in_progress") => some .in_progress
  | .str ("completed") => some .completed
  | _ => none

/-- Dataclass `Todo`.  `content` is whatever JSON value was stored (the
dataclass performs no validation). -/
structure Todo where
  content : Json
  status : TodoStatus

/-- The list the `cycle` local of `Todo.cycle_status` is built from. -/
def statusCycleOrder : List TodoStatus := [.pending, .in_progress, .completed]

/-- `Todo.cycle_status`: `cycle[(cycle.index(self.status) + 1) % len(cycle)]`. -/
def Todo.cycle_status (t : Todo) : Todo :=
  { t with
    status :=
      statusCycleOrder.getD
        ((statusCycleOrder.indexOf t.status + 1) % statusCycleOrder.length)
        .pending }

/-- The exceptions `load_todos` can encounter. -/
inductive PyErr where
  | keyError
  | valueError
  | typeError
  | attributeError
deriving DecidableEq, Repr

/-- `Todo.from_dict(data)`: `data["content"]` (KeyError when absent,
TypeError when `data` is not a dict) and
`TodoStatus(data.get("status", "pending"))` (ValueError on an unknown
status value). -/
def Todo.from_dict (data : Json) : Except PyErr Todo :=
  match data with
  | .obj fields =>
    match pyGet fields ("content") with
    | none => .error .keyError
    | some c =>
      match TodoStatus.ofValue ((pyGet fields ("status")).getD (.str ("pending"))) with
      | some st => .ok ⟨c, st⟩
      | none => .error .valueError
  | _ => .error .typeError

/-- The list comprehension `[Todo.from_dict(item) for item in items]`:
stops at the first exception. -/
def fromDictAll : List Json → Except PyErr (List Todo)
  | [] => .ok []
  | item :: rest =>
    match Todo.from_dict item with
    | .ok t =>
      match fromDictAll rest with
      | .ok ts => .ok (t :: ts)
      | .error e => .error e
    | .error e => .error e

/-- The observable state of a project's todo file. -/
inductive FileState where
  | missing
  | unreadable
  | badJson
  | content (j : Json)

/-- What `load_todos` does: return a list, or raise an uncaught exception. -/
inductive LoadOutcome where
  | ok (todos : List Todo)
  | raises (e : PyErr)

/-- `load_todos`: missing file → `[]`; `IOError` on read → `[]`;
`json.JSONDecodeError` → `[]`; `data.get("items", [])` on a non-object →
AttributeError; iterating a non-list `items` → TypeError (an empty string
or empty dict iterates zero items); a `KeyError` from an item → `[]`
(caught); any other exception from an item propagates. -/
def load_todos (file : FileState) : LoadOutcome :=
  match file with
  | .missing => .ok []
  | .unreadable => .ok []
  | .badJson => .ok []
  | .content j =>
    match j with
    | .obj fields =>
      match (pyGet fields ("items")).getD (.arr []) with
      | .arr items =>
        match fromDictAll items with
        | .ok ts => .ok ts
        | .error .keyError => .ok []
        | .error e => .raises e
      | .str s => if s.isEmpty then .ok [] else .raises .typeError
      | .obj fields2 => if fields2.isEmpty then .ok [] else .raises .typeError
      | _ => .raises .typeError
    | _ => .raises .attributeError

/-!
## Round-trip machinery
-/

theorem headerOf_nil : headerOf [] = none := rfl

theorem notHeader_nil : notHeader [] = true := rfl

/-- `parse` never sees a header in `s` when every line of `s` is a
non-header. -/
def noHeader (s : Str) : Bool := (splitNl s).all notHeader

theorem hashRun_hdrLine (lvl : Nat) (t : Str) :
    hashRun (List.replicate lvl '#' ++ ' ' :: t) = lvl := by
  rw [hashRun, List.takeWhile_append_of_pos
    (fun a ha => by rw [List.eq_of_mem_replicate ha]; rfl)]
  rw [List.takeWhile_cons, if_neg (by decide)]
  simp

theorem drop_hdrLine (lvl : Nat) (t : Str) :
    (List.replicate lvl '#' ++ ' ' :: t).drop lvl = ' ' :: t :=
  List.drop_left' (List.length_replicate lvl '#')

theorem hdrLine_nlFree (lvl : Nat) (t : Str) (hnl : '\n' ∉ t) :
    '\n' ∉ (List.replicate lvl '#' ++ ' ' :: t) := by
  intro hmem
  rcases List.mem_append.mp hmem with hm | hm
  · exact absurd (List.eq_of_mem_replicate hm) (by decide)
  · rcases List.mem_cons.mp hm with hm | hm
    · exact absurd hm (by decide)
    · exact hnl hm

/-- A serialized header line is recognised with the same level and title. -/
theorem headerOf_hdrLine (lvl : Nat) (t : Str) (h1 : 1 ≤ lvl) (h6 : lvl ≤ 6)
    (ht : t ≠ []) (hnl : '\n' ∉ t) :
    headerOf (List.replicate lvl '#' ++ ' ' :: t) = some (lvl, strip t) := by
  rw [headerOf_eq _ (hdrLine_nlFree lvl t hnl), hashRun_hdrLine]
  obtain ⟨x, xs, rfl⟩ := List.exists_cons_of_ne_nil ht
  have hcheck : isHeaderCheck (List.replicate lvl '#' ++ ' ' :: x :: xs) = true := by
    rw [isHeaderCheck, hashRun_hdrLine, drop_hdrLine]
    show (decide (1 ≤ lvl) && decide (lvl ≤ 6) && isWs ' ') = true
    simp only [Bool.and_eq_true, decide_eq_true_eq]
    exact ⟨⟨h1, h6⟩, rfl⟩
  rw [if_pos hcheck, drop_hdrLine, strip_cons_ws ' ' _ (by decide)]

theorem notHeader_hdrLine (lvl : Nat) (t : Str) (h1 : 1 ≤ lvl) (h6 : lvl ≤ 6)
    (ht : t ≠ []) (hnl : '\n' ∉ t) :
    notHeader (List.replicate lvl '#' ++ ' ' :: t) = false := by
  rw [notHeader, headerOf_hdrLine lvl t h1 h6 ht hnl]
  rfl

/-- Sections whose serialized form round-trips: non-empty stripped
single-line title, level between 1 and 6, stripped content containing no
header line. -/
def goodSection (s : ConfigSection) : Prop :=
  s.title ≠ [] ∧ strip s.title = s.title ∧ '\n' ∉ s.title ∧
  1 ≤ s.level ∧ s.level ≤ 6 ∧ strip s.content = s.content ∧
  noHeader s.content = true

theorem splitNl_joinBlocks (parts : List Str) (h : parts ≠ []) :
    splitNl (joinBlocks parts ++ ['\n']) =
      (parts.map (fun q => splitNl q ++ [[]])).flatten := by
  induction parts with
  | nil => exact absurd rfl h
  | cons q qs ih =>
    cases qs with
    | nil =>
      rw [show joinBlocks [q] ++ ['\n'] = q ++ '\n' :: [] from rfl, splitNl_append_nl]
      simp [splitNl]
    | cons q2 qs2 =>
      rw [show joinBlocks (q :: q2 :: qs2) ++ ['\n']
            = q ++ '\n' :: ('\n' :: (joinBlocks (q2 :: qs2) ++ ['\n'])) by
          simp [joinBlocks],
        splitNl_append_nl, splitNl_cons_nl, ih (by simp)]
      simp

theorem splitNl_to_markdown (s : ConfigSection) (hnl : '\n' ∉ s.title) :
    splitNl s.to_markdown =
      (List.replicate s.level '#' ++ ' ' :: s.title) :: [] :: splitNl s.content := by
  rw [ConfigSection.to_markdown,
    show List.replicate s.level '#' ++ ' ' :: (s.title ++ '\n' :: '\n' :: s.content)
        = (List.replicate s.level '#' ++ ' ' :: s.title) ++ '\n' :: ('\n' :: s.content) by
      simp,
    splitNl_append_nl, splitNl_nlFree _ (hdrLine_nlFree s.level s.title hnl),
    splitNl_cons_nl]
  rfl

/-- The line blocks a list of sections serializes to. -/
def tailBlocks (secs : List ConfigSection) : List Str :=
  (secs.map (fun s => splitNl s.to_markdown ++ [[]])).flatten

theorem takeWhile_body (body tail : List Str)
    (hb : ∀ l ∈ body, notHeader l = true)
    (htail : tail = [] ∨ ∃ h rest, tail = h :: rest ∧ notHeader h = false) :
    (body ++ tail).takeWhile notHeader = body ∧
      (body ++ tail).dropWhile notHeader = tail := by
  rw [List.takeWhile_append_of_pos hb, List.dropWhile_append_of_pos hb]
  rcases htail with rfl | ⟨h, rest, rfl, hh⟩
  · simp
  · rw [List.takeWhile_cons_of_neg (by simp [hh]),
      List.dropWhile_cons_of_neg (by simp [hh])]
    simp

theorem tailBlocks_shape (secs : List ConfigSection)
    (hs : ∀ s ∈ secs, goodSection s) :
    tailBlocks secs = [] ∨
      ∃ h rest, tailBlocks secs = h :: rest ∧ notHeader h = false := by
  cases secs with
  | nil => left; rfl
  | cons s rest =>
    right
    obtain ⟨ht, hts, htnl, h1, h6, hcs, hnh⟩ := hs s (List.mem_cons_self s rest)
    rw [tailBlocks, List.map_cons, List.flatten_cons, splitNl_to_markdown s htnl]
    refine ⟨List.replicate s.level '#' ++ ' ' :: s.title,
      ([] :: splitNl s.content ++ [[]]) ++
        (rest.map (fun x => splitNl x.to_markdown ++ [[]])).flatten,
      by simp, notHeader_hdrLine s.level s.title h1 h6 ht htnl⟩

theorem strip_joinNl_body (c : Str) :
    strip (joinNl ([] :: splitNl c ++ [[]])) = strip c := by
  rw [List.cons_append,
    joinNl_cons [] (splitNl c ++ [[]]) (by simp [splitNl_ne_nil]),
    joinNl_append (splitNl c) [[]] (splitNl_ne_nil c) (by simp),
    joinNl_splitNl]
  show strip ('\n' :: (c ++ '\n' :: joinNl [[]])) = strip c
  rw [strip_cons_ws '\n' _ (by decide),
    show c ++ '\n' :: joinNl [[]] = c ++ ['\n'] by simp [joinNl],
    strip_append_ws c '\n' (by decide)]

theorem noHeader_mem (s : Str) (h : noHeader s = true) :
    ∀ l ∈ splitNl s, notHeader l = true := by
  rw [noHeader, List.all_eq_true] at h
  exact h

/-- `refSections` recovers a good section list from its serialized blocks. -/
theorem refSections_blocks (secs : List ConfigSection)
    (hs : ∀ s ∈ secs, goodSection s) :
    refSections (tailBlocks secs) = secs := by
  induction secs with
  | nil => exact refSections_nil
  | cons s rest ih =>
    obtain ⟨ht, hts, htnl, h1, h6, hcs, hnh⟩ := hs s (List.mem_cons_self s rest)
    rw [tailBlocks, List.map_cons, List.flatten_cons, splitNl_to_markdown s htnl]
    rw [show ((List.replicate s.level '#' ++ ' ' :: s.title) :: [] :: splitNl s.content
          ++ [[]]) ++ (rest.map (fun x => splitNl x.to_markdown ++ [[]])).flatten
        = (List.replicate s.level '#' ++ ' ' :: s.title) ::
          (([] :: splitNl s.content ++ [[]]) ++ tailBlocks rest) by
      simp [tailBlocks]]
    rw [refSections]
    have hbody : ∀ l ∈ [] :: splitNl s.content ++ [[]], notHeader l = true := by
      intro l hl
      rcases List.mem_cons.mp hl with rfl | hl
      · exact notHeader_nil
      · rcases List.mem_append.mp hl with hl | hl
        · exact noHeader_mem s.content hnh l hl
        · rcases List.mem_singleton.mp hl with rfl
          exact notHeader_nil
    have hrest := ih (fun x hx => hs x (List.mem_cons_of_mem s hx))
    obtain ⟨htw, hdw⟩ := takeWhile_body _ _ hbody
      (tailBlocks_shape rest (fun x hx => hs x (List.mem_cons_of_mem s hx)))
    rw [headerOf_hdrLine s.level s.title h1 h6 ht htnl]
    simp only [htw, hdw, hrest]
    rw [closeSection, strip_joinNl_body, hcs, hts]

theorem splitNl_save (p : Str) (secs : List ConfigSection)
    (hne : ¬(p = [] ∧ secs = [])) :
    splitNl (save_claude_md p secs) =
      (if p = [] then [] else splitNl p ++ [[]]) ++ tailBlocks secs := by
  rw [save_claude_md]
  by_cases hp : p = []
  · subst hp
    rw [if_pos rfl, if_neg (fun h => h rfl), List.nil_append, List.nil_append]
    cases secs with
    | nil => exact absurd ⟨rfl, rfl⟩ hne
    | cons s rest =>
      rw [splitNl_joinBlocks _ (by simp), List.map_map]
      rfl
  · rw [if_neg hp, if_pos hp, splitNl_joinBlocks _ (by simp),
      show [p] ++ List.map ConfigSection.to_markdown secs
        = p :: List.map ConfigSection.to_markdown secs from rfl,
      List.map_cons, List.flatten_cons, List.map_map]
    rfl

/-- Round-trip: parsing the serialized form of a good document gives the
document back. -/
theorem roundtrip_good (p : Str) (secs : List ConfigSection)
    (hp : strip p = p) (hpn : noHeader p = true)
    (hs : ∀ s ∈ secs, goodSection s) :
    parse_claude_md (save_claude_md p secs) = (p, secs) := by
  rw [parse_refParse]
  by_cases hboth : p = [] ∧ secs = []
  · obtain ⟨rfl, rfl⟩ := hboth
    rw [show save_claude_md [] [] = ['\n'] from rfl,
      show splitNl ['\n'] = [[], []] from rfl, refParse]
    have hnh : ∀ l ∈ [([] : Str), []], notHeader l = true := by
      intro l hl
      rcases List.mem_cons.mp hl with rfl | hl
      · exact notHeader_nil
      · rw [List.mem_singleton.mp hl]
        exact notHeader_nil
    rw [List.takeWhile_eq_self_iff.mpr hnh, List.dropWhile_eq_nil_iff.mpr hnh,
      refSections_nil, show joinNl [([] : Str), []] = ['\n'] from rfl,
      show strip ['\n'] = [] from rfl]
  · rw [splitNl_save p secs hboth, refParse]
    by_cases hpe : p = []
    · rw [if_pos hpe]
      subst hpe
      have hsecs : secs ≠ [] := fun h => hboth ⟨rfl, h⟩
      rcases tailBlocks_shape secs hs with heq | ⟨h, hrest, heq, hh⟩
      · exfalso
        obtain ⟨s, rest, rfl⟩ := List.exists_cons_of_ne_nil hsecs
        rw [tailBlocks, List.map_cons, List.flatten_cons] at heq
        obtain ⟨ht, hts, htnl, _⟩ := hs s (List.mem_cons_self s rest)
        rw [splitNl_to_markdown s htnl] at heq
        simp at heq
      · rw [List.nil_append, heq, List.takeWhile_cons_of_neg (by simp [hh]),
          List.dropWhile_cons_of_neg (by simp [hh]), ← heq,
          refSections_blocks secs hs]
        rfl
    · rw [if_neg hpe]
      have hbody : ∀ l ∈ splitNl p ++ [[]], notHeader l = true := by
        intro l hl
        rcases List.mem_append.mp hl with hl | hl
        · exact noHeader_mem p hpn l hl
        · rw [List.mem_singleton.mp hl]
          exact notHeader_nil
      obtain ⟨htw, hdw⟩ := takeWhile_body (splitNl p ++ [[]]) (tailBlocks secs)
        hbody (tailBlocks_shape secs hs)
      rw [htw, hdw, refSections_blocks secs hs,
        joinNl_append (splitNl p) [[]] (splitNl_ne_nil p) (by simp),
        joinNl_splitNl,
        show p ++ '\n' :: joinNl [[]] = p ++ ['\n'] from rfl,
        strip_append_ws p '\n' (by decide), hp]

/-!
## Shape of the parser's output
-/

theorem mem_strip (s : Str) (c : Char) (h : c ∈ strip s) : c ∈ s := by
  rw [strip, rstrip] at h
  have h1 : c ∈ lstrip s := by
    rw [List.mem_reverse] at h
    have h2 := (List.dropWhile_sublist (l := (lstrip s).reverse) (p := isWs)).subset h
    rwa [List.mem_reverse] at h2
  exact (List.dropWhile_sublist (p := isWs)).subset h1

theorem dotPlusDollar_out_nlFree (s g : Str) (h : dotPlusDollar s = some g) :
    ∀ c ∈ g, c ≠ '\n' := by
  rw [dotPlusDollar] at h
  by_cases h1 : s ≠ [] ∧ ∀ c ∈ s, c ≠ '\n'
  · rw [if_pos h1] at h
    cases h
    exact h1.2
  · rw [if_neg h1] at h
    by_cases h2 : s.getLast? = some '\n' ∧ s.dropLast ≠ [] ∧ ∀ c ∈ s.dropLast, c ≠ '\n'
    · rw [if_pos h2] at h
      cases h
      exact h2.2.2
    · rw [if_neg h2] at h
      cases h

theorem tryWs_some (s : Str) : ∀ (k : Nat) (g : Str), tryWs s k = some g →
    ∃ j, dotPlusDollar (s.drop j) = some g := by
  intro k
  induction k with
  | zero => intro g h; simp [tryWs] at h
  | succ k ih =>
    intro g h
    rw [tryWs] at h
    rcases hd : dotPlusDollar (s.drop (k + 1)) with _ | g'
    · rw [hd] at h
      exact ih g h
    · rw [hd] at h
      cases h
      exact ⟨k + 1, hd⟩

theorem tryHash_some (line : Str) : ∀ (k n : Nat) (g : Str),
    tryHash line k = some (n, g) →
      1 ≤ n ∧ n ≤ k ∧ wsThenRest (line.drop n) = some g := by
  intro k
  induction k with
  | zero => intro n g h; simp [tryHash] at h
  | succ k ih =>
    intro n g h
    rw [tryHash] at h
    rcases hw : wsThenRest (line.drop (k + 1)) with _ | g'
    · rw [hw] at h
      obtain ⟨a, b, c⟩ := ih n g h
      exact ⟨a, by omega, c⟩
    · rw [hw] at h
      cases h
      exact ⟨by omega, le_refl _, hw⟩

/-- Any header the parser recognises has level between 1 and 6 and a
stripped, newline-free title. -/
theorem headerOf_some_shape (line : Str) (lvl : Nat) (title : Str)
    (h : headerOf line = some (lvl, title)) :
    1 ≤ lvl ∧ lvl ≤ 6 ∧ strip title = title ∧ '\n' ∉ title := by
  rw [headerOf] at h
  rcases hm : matchHeaderLine line with _ | ⟨n, g⟩
  · rw [hm] at h
    cases h
  · rw [hm] at h
    rw [Option.map_some'] at h
    cases h
    obtain ⟨h1, h6, hws⟩ := tryHash_some line (min (hashRun line) 6) n g hm
    obtain ⟨j, hj⟩ := tryWs_some _ _ g hws
    have hgnl : ∀ c ∈ g, c ≠ '\n' := dotPlusDollar_out_nlFree _ g hj
    refine ⟨h1, by omega, strip_idem g, ?_⟩
    intro hmem
    exact hgnl '\n' (mem_strip g '\n' hmem) rfl

theorem refSections_shape (N : Nat) : ∀ lines : List Str, lines.length ≤ N →
    ∀ s ∈ refSections lines,
      strip s.title = s.title ∧ '\n' ∉ s.title ∧ 1 ≤ s.level ∧ s.level ≤ 6 ∧
        strip s.content = s.content := by
  induction N with
  | zero =>
    intro lines hlen s hs
    rw [List.length_eq_zero.mp (Nat.le_zero.mp hlen), refSections_nil] at hs
    cases hs
  | succ N ih =>
    intro lines hlen s hs
    cases lines with
    | nil =>
      rw [refSections_nil] at hs
      cases hs
    | cons h rest =>
      rw [refSections] at hs
      rcases hh : headerOf h with _ | ⟨lvl, title⟩
      · rw [hh] at hs
        exact ih rest (by simp only [List.length_cons] at hlen; omega) s hs
      · rw [hh] at hs
        rcases List.mem_cons.mp hs with rfl | hs
        · obtain ⟨h1, h6, hts, htnl⟩ := headerOf_some_shape h lvl title hh
          exact ⟨hts, htnl, h1, h6, strip_idem _⟩
        · refine ih (rest.dropWhile notHeader) ?_ s hs
          have hd := dropWhile_length_le notHeader rest
          simp only [List.length_cons] at hlen
          omega

/-- The parser's output always consists of a stripped preamble and sections
with stripped, newline-free titles, levels in `[1, 6]`, and stripped
contents. -/
theorem parse_shape (text : Str) :
    strip (parse_claude_md text).1 = (parse_claude_md text).1 ∧
    ∀ s ∈ (parse_claude_md text).2,
      strip s.title = s.title ∧ '\n' ∉ s.title ∧ 1 ≤ s.level ∧ s.level ≤ 6 ∧
        strip s.content = s.content := by
  rw [parse_refParse, refParse]
  exact ⟨strip_idem _, refSections_shape _ _ (le_refl _)⟩

instance goodSectionDecidable (s : ConfigSection) : Decidable (goodSection s) := by
  unfold goodSection
  infer_instance

/-- The reference header test, unfolded to an explicit description of the
line's shape. -/
theorem isHeaderCheck_iff (line : Str) :
    isHeaderCheck line = true ↔
      (1 ≤ hashRun line ∧ hashRun line ≤ 6 ∧
        ∃ c rest, line.drop (hashRun line) = c :: rest ∧ isWs c = true ∧
          rest ≠ []) := by
  rw [isHeaderCheck]
  rcases hd : line.drop (hashRun line) with _ | ⟨c, t⟩
  · show (decide (1 ≤ hashRun line) && decide (hashRun line ≤ 6) && false)
        = true ↔ _
    simp only [Bool.and_false]
    constructor
    · intro h
      cases h
    · rintro ⟨_, _, c', rest, heq, _, _⟩
      cases heq
  · rcases t with _ | ⟨d, t2⟩
    · show (decide (1 ≤ hashRun line) && decide (hashRun line ≤ 6) && false)
          = true ↔ _
      simp only [Bool.and_false]
      constructor
      · intro h
        cases h
      · rintro ⟨_, _, c', rest, heq, _, hne⟩
        injection heq with he1 he2
        subst he2
        exact (hne rfl).elim
    · show (decide (1 ≤ hashRun line) && decide (hashRun line ≤ 6) && isWs c)
          = true ↔ _
      simp only [Bool.and_eq_true, decide_eq_true_eq]
      constructor
      · rintro ⟨⟨h1, h6⟩, hc⟩
        exact ⟨h1, h6, c, d :: t2, rfl, hc, by simp⟩
      · rintro ⟨h1, h6, c', rest, heq, hc', hne⟩
        injection heq with he1 he2
        subst he1
        subst he2
        exact ⟨⟨h1, h6⟩, hc'⟩

/-!
## The claims
-/

/-- C1, counterexample to the claim as stated: the text `"#  "` parses to a
document with one empty-titled section, whose serialization `"# \n\n\n"`
re-parses to a document with preamble `"#"` and no sections — so
`parse (serialize d) = d` fails for a parser-producible document. -/
theorem c1_cex :
    parse_claude_md (save_claude_md (parse_claude_md (("#  ").data)).1
        (parse_claude_md (("#  ").data)).2)
      ≠ parse_claude_md (("#  ").data) := by decide

/-- C1 (amended): for every Document `d` produced by the parser, if every
section title of `d` is non-empty and neither `d`'s preamble nor any
section content contains a line matching the header pattern, then
re-serializing `d` and re-parsing the result yields `d` (same preamble,
same ordered sections with identical title, content and level). -/
theorem c1_round_trip (text : Str)
    (htitles : ∀ s ∈ (parse_claude_md text).2, s.title ≠ [])
    (hpre : noHeader (parse_claude_md text).1 = true)
    (hcont : ∀ s ∈ (parse_claude_md text).2, noHeader s.content = true) :
    parse_claude_md
        (save_claude_md (parse_claude_md text).1 (parse_claude_md text).2)
      = parse_claude_md text := by
  obtain ⟨hp, hsecs⟩ := parse_shape text
  rw [roundtrip_good (parse_claude_md text).1 (parse_claude_md text).2 hp hpre
    (fun s hs => by
      obtain ⟨hts, htnl, h1, h6, hcs⟩ := hsecs s hs
      exact ⟨htitles s hs, hts, htnl, h1, h6, hcs, hcont s hs⟩)]

/-- C1 witness: the round trip at the spec's own multi-section example. -/
theorem c1_round_trip_inst :
    parse_claude_md (save_claude_md
        (parse_claude_md (("Pre\n\n## A\nbody a\n\n### B\nbody b").data)).1
        (parse_claude_md (("Pre\n\n## A\nbody a\n\n### B\nbody b").data)).2)
      = parse_claude_md (("Pre\n\n## A\nbody a\n\n### B\nbody b").data) :=
  c1_round_trip (("Pre\n\n## A\nbody a\n\n### B\nbody b").data)
    (by decide) (by decide) (by decide)

/-- C2, counterexample to the claim as stated: the directly constructed
Document with one section titled `"T"` whose content is the single line
`"# X"` serializes to `"## T\n\n# X\n"`, which re-parses to two sections —
not an equal Document. -/
theorem c2_cex :
    parse_claude_md (save_claude_md []
        [⟨("T").data, ("# X").data, 2⟩])
      ≠ ([], [⟨("T").data, ("# X").data, 2⟩]) := by decide

/-- C2 (amended): the serialize-then-parse round trip holds for every
directly constructed Document whose preamble is `strip`-fixed and free of
header-pattern lines and whose sections have non-empty, `strip`-fixed,
newline-free titles, levels in `[1, 6]`, and `strip`-fixed contents free of
header-pattern lines.  (Embedded blank lines and internal whitespace in
contents are preserved; only un-stripped boundary whitespace, embedded
header-like lines, newlines in titles, or out-of-range levels break the
round trip.) -/
theorem c2_round_trip (p : Str) (secs : List ConfigSection)
    (hp : strip p = p) (hpn : noHeader p = true)
    (hs : ∀ s ∈ secs, goodSection s) :
    parse_claude_md (save_claude_md p secs) = (p, secs) :=
  roundtrip_good p secs hp hpn hs

/-- C2 witness: a directly constructed document with an embedded blank line
in a section content round-trips. -/
theorem c2_round_trip_inst :
    parse_claude_md (save_claude_md (("Intro").data)
        [⟨("A").data, ("line one\n\nline two").data, 2⟩,
         ⟨("B").data, ("x").data, 3⟩])
      = ((("Intro").data),
        [⟨("A").data, ("line one\n\nline two").data, 2⟩,
         ⟨("B").data, ("x").data, 3⟩]) :=
  c2_round_trip (("Intro").data)
    [⟨("A").data, ("line one\n\nline two").data, 2⟩,
     ⟨("B").data, ("x").data, 3⟩]
    (by decide) (by decide) (by decide)

/-- C3, counterexample to the claim as stated: the line `"#  "` — `#`
followed by two spaces, i.e. only whitespace after the hashes — IS treated
as a header by the parser (the greedy `\s+` backs off and `(.+)` matches
the final space), producing a section with empty title. -/
theorem c3_cex : (parse_claude_md (("#  ").data)).2 ≠ [] := by decide

/-- C3 (amended): a (newline-free) line is treated as a header iff it has
1–6 leading `#` characters followed immediately by a whitespace character
and at least one further character (which may itself be whitespace); the
level is the count of leading `#`s and the title is the remainder after the
`#`s with surrounding whitespace stripped — possibly empty, when the
remainder is all whitespace. -/
theorem c3_header_rule (line : Str) (hnl : '\n' ∉ line) :
    ((headerOf line).isSome ↔
      (1 ≤ hashRun line ∧ hashRun line ≤ 6 ∧
        ∃ c rest, line.drop (hashRun line) = c :: rest ∧ isWs c = true ∧
          rest ≠ [])) ∧
    ∀ lvl title, headerOf line = some (lvl, title) →
      lvl = hashRun line ∧ title = strip (line.drop (hashRun line)) := by
  have he := headerOf_eq line hnl
  by_cases hc : isHeaderCheck line = true
  · rw [he, if_pos hc]
    refine ⟨by simp [(isHeaderCheck_iff line).mp hc], ?_⟩
    intro lvl title h
    simp only [Option.some.injEq, Prod.mk.injEq] at h
    exact ⟨h.1.symm, h.2.symm⟩
  · rw [he, if_neg hc]
    refine ⟨?_, fun lvl title h => by cases h⟩
    simp only [Option.isSome_none, Bool.false_eq_true, false_iff]
    intro hr
    exact hc ((isHeaderCheck_iff line).mpr hr)

/-- C3 witness: the rule applied to the header line `"## Title"`. -/
theorem c3_header_rule_inst :
    2 = hashRun (("## Title").data) ∧
    ("Title").data
      = strip ((("## Title").data).drop (hashRun (("## Title").data))) :=
  (c3_header_rule (("## Title").data) (by decide)).2 2 (("Title").data) rfl

/-- C4, counterexample to the claim as stated: parsing `"  hello"` yields
preamble `"hello"` — the leading indentation of the first non-blank line is
NOT preserved, because the code strips all leading/trailing whitespace
(`str.strip()`), not merely blank lines. -/
theorem c4_cex :
    (parse_claude_md (("  hello").data)).1 ≠ (("  hello").data) := by decide

/-- C4 (amended): the preamble is the verbatim run of lines before the
first header line, joined with newlines and then Python-`strip`ped — i.e.
trimmed of ALL leading and trailing whitespace (blank lines AND horizontal
whitespace at the boundary of the first/last non-blank lines); likewise
each section's content is its accumulated lines joined and `strip`ped, as
stated by the reference parse. -/
theorem c4_trim_rule (text : Str) :
    parse_claude_md text = refParse (splitNl text) ∧
    (parse_claude_md text).1
      = strip (joinNl ((splitNl text).takeWhile notHeader)) :=
  ⟨parse_refParse text, by rw [parse_refParse, refParse]⟩

/-- C5, counterexample to the claim as stated: serializing a section whose
stored content is `" x"` emits the content as stored — `"## T\n\n x\n"` —
not the trimmed content `"## T\n\nx\n"` the claim prescribes. -/
theorem c5_cex :
    save_claude_md [] [⟨("T").data, (" x").data, 2⟩]
        = (("## T\n\n x\n").data) ∧
    save_claude_md [] [⟨("T").data, (" x").data, 2⟩]
        ≠ (("## T\n\nx\n").data) := by
  constructor
  · rfl
  · decide

/-- C5 (amended): for every Document with at least one block and
newline-free titles, the serialized output's lines are: the preamble's
lines (when the preamble is non-empty), then for each section in order its
header line (`level` `#`s, one space, the title), a blank line, and the
content's lines AS STORED (the serializer does not trim), with exactly one
blank line separating consecutive blocks and a single trailing newline. -/
theorem c5_serialize_shape (p : Str) (secs : List ConfigSection)
    (hne : ¬(p = [] ∧ secs = []))
    (hnl : ∀ s ∈ secs, '\n' ∉ s.title) :
    splitNl (save_claude_md p secs) =
      (if p = [] then [] else splitNl p ++ [[]]) ++
        (secs.map (fun s =>
          (List.replicate s.level '#' ++ ' ' :: s.title) ::
            [] :: splitNl s.content ++ [[]])).flatten := by
  rw [splitNl_save p secs hne, tailBlocks,
    List.map_congr_left (fun s hs => by rw [splitNl_to_markdown s (hnl s hs)])]

/-- C5 witness: the line shape of a one-section document with preamble. -/
theorem c5_serialize_shape_inst :
    splitNl (save_claude_md (("Hi").data) [⟨("T").data, ("body").data, 2⟩]) =
      (if ("Hi").data = ([] : Str) then []
        else splitNl (("Hi").data) ++ [[]]) ++
        (([⟨("T").data, ("body").data, 2⟩] : List ConfigSection).map (fun s =>
          (List.replicate s.level '#' ++ ' ' :: s.title) ::
            [] :: splitNl s.content ++ [[]])).flatten :=
  c5_serialize_shape (("Hi").data) [⟨("T").data, ("body").data, 2⟩]
    (by decide) (by decide)

/-- C6, counterexample to the claim as stated: loading a record whose item
has the unknown status `"done"` does NOT yield that task with status
`pending` — `TodoStatus("done")` raises `ValueError`, which the `except`
clause does not catch. -/
theorem c6_cex :
    load_todos (.content (.obj [(("items"),
        .arr [.obj [(("content"), .str ("x")), (("status"), .str ("done"))]])]))
      ≠ LoadOutcome.ok [⟨Json.str ("x"), TodoStatus.pending⟩] :=
  fun h => nomatch h

/-- C6 (amended): an item whose `status` KEY is absent loads as `pending`
(that is what `data.get("status", "pending")` defaults); an item whose
`status` field holds a value outside the three known statuses makes
`Todo.from_dict` raise `ValueError`, which `load_todos` propagates — it
does not load the task as `pending`. -/
theorem c6_status_load :
    (∀ c : Json, Todo.from_dict (.obj [(("content"), c)])
        = .ok ⟨c, TodoStatus.pending⟩) ∧
    (∀ c v : Json, TodoStatus.ofValue v = none →
        Todo.from_dict (.obj [(("content"), c), (("status"), v)])
          = .error PyErr.valueError) ∧
    load_todos (.content (.obj [(("items"),
        .arr [.obj [(("content"), .str ("x")), (("status"), .str ("done"))]])]))
      = .raises PyErr.valueError := by
  refine ⟨fun c => rfl, fun c v hv => ?_, rfl⟩
  have hred : Todo.from_dict (.obj [(("content"), c), (("status"), v)]) =
      match TodoStatus.ofValue v with
      | some st => .ok ⟨c, st⟩
      | none => .error .valueError := rfl
  rw [hred, hv]

/-- C6 witness: `from_dict` on an item with status `"done"` raises
`ValueError` rather than defaulting to `pending`. -/
theorem c6_status_load_inst :
    Todo.from_dict (.obj [(("content"), Json.str ("x")),
        (("status"), Json.str ("done"))])
      = .error PyErr.valueError :=
  c6_status_load.2.1 (Json.str ("x")) (Json.str ("done")) rfl

/-- C7: the claim "loading never raises" is violated by the code.  A stored
record that is valid JSON of the documented shape but carries an unknown
status value (here `"wip"`) makes `load_todos` raise `ValueError` — the
`except` clause catches only `JSONDecodeError`, `KeyError` and `IOError`.
The missing/unreadable/undecodable cases do return `[]` as claimed. -/
theorem c7_load_raises :
    load_todos (.content (.obj [(("items"),
        .arr [.obj [(("content"), .str ("x")), (("status"), .str ("wip"))]])]))
      = .raises PyErr.valueError ∧
    load_todos .missing = .ok [] ∧
    load_todos .unreadable = .ok [] ∧
    load_todos .badJson = .ok [] :=
  ⟨rfl, rfl, rfl, rfl⟩

/-- C8: `cycle_status` sends pending → in_progress → completed → pending,
and three applications are the identity from every starting status. -/
theorem c8_status_cycle :
    (∀ t : Todo, t.status = TodoStatus.pending →
      t.cycle_status.status = TodoStatus.in_progress ∧
      t.cycle_status.cycle_status.status = TodoStatus.completed ∧
      t.cycle_status.cycle_status.cycle_status.status = TodoStatus.pending) ∧
    ∀ t : Todo, t.cycle_status.cycle_status.cycle_status = t := by
  constructor
  · rintro ⟨c, st⟩ h
    have hst : st = TodoStatus.pending := h
    subst hst
    refine ⟨?_, ?_, ?_⟩ <;> simp [Todo.cycle_status, statusCycleOrder]
  · rintro ⟨c, st⟩
    cases st <;> simp [Todo.cycle_status, statusCycleOrder]

/-- C8 witness: the cycle at a concrete pending task. -/
theorem c8_status_cycle_inst :
    (Todo.mk Json.null TodoStatus.pending).cycle_status.status
        = TodoStatus.in_progress ∧
    (Todo.mk Json.null TodoStatus.pending).cycle_status.cycle_status.status
        = TodoStatus.completed ∧
    (Todo.mk Json.null
        TodoStatus.pending).cycle_status.cycle_status.cycle_status.status
        = TodoStatus.pending :=
  c8_status_cycle.1 ⟨Json.null, TodoStatus.pending⟩ rfl

/-- C9: the parser is total by construction (`parse_claude_md` is a total
function of the input text); the empty input yields exactly the empty
document, and any input none of whose lines matches the header pattern
yields a document with no sections whose preamble is the whole (stripped)
input. -/
theorem c9_parse_total :
    parse_claude_md [] = ([], []) ∧
    ∀ text : Str, noHeader text = true →
      parse_claude_md text = (strip text, []) := by
  constructor
  · rfl
  · intro text h
    rw [parse_refParse, refParse,
      List.takeWhile_eq_self_iff.mpr (noHeader_mem text h),
      List.dropWhile_eq_nil_iff.mpr (noHeader_mem text h),
      refSections_nil, joinNl_splitNl]

/-- C9 witness: the spec's header-free example text. -/
theorem c9_parse_total_inst :
    parse_claude_md (("hello\nworld").data)
      = (strip (("hello\nworld").data), []) :=
  c9_parse_total.2 (("hello\nworld").data) (by decide)

/-- C10: out-of-range (negative or too large) indices make
`update_section` and `delete_section` return `False` with the stored text
unchanged; an in-range `update_section` saves the parsed document with only
the indexed section's title and content replaced — its level, the
preamble, all other sections and their order are unchanged. -/
theorem c10_section_edits (text : Str) (index : Int) (title content : Str) :
    (¬(0 ≤ index ∧ index < ((parse_claude_md text).2.length : Int)) →
      update_section text index title content = (text, false) ∧
      delete_section text index = (text, false)) ∧
    ((0 ≤ index ∧ index < ((parse_claude_md text).2.length : Int)) →
      ∃ secs' : List ConfigSection,
        update_section text index title content
          = (save_claude_md (parse_claude_md text).1 secs', true) ∧
        secs'.length = (parse_claude_md text).2.length ∧
        (∀ j : Nat, j ≠ index.toNat →
          secs'[j]? = (parse_claude_md text).2[j]?) ∧
        ∃ old : ConfigSection,
          (parse_claude_md text).2[index.toNat]? = some old ∧
          secs'[index.toNat]? = some ⟨title, content, old.level⟩) := by
  constructor
  · intro h
    constructor
    · simp only [update_section]
      rw [if_neg h]
    · simp only [delete_section]
      rw [if_neg h]
  · intro h
    have hlt : index.toNat < (parse_claude_md text).2.length := by omega
    refine ⟨(parse_claude_md text).2.set index.toNat
      { (parse_claude_md text).2.getD index.toNat dummySection with
          title := title, content := content }, ?_, ?_, ?_, ?_⟩
    · simp only [update_section]
      rw [if_pos h]
    · exact List.length_set _ _ _
    · intro j hj
      exact List.getElem?_set_ne (Ne.symm hj)
    · have hgetD : (parse_claude_md text).2.getD index.toNat dummySection
          = (parse_claude_md text).2[index.toNat] := by
        rw [List.getD_eq_getElem?_getD, List.getElem?_eq_getElem hlt]
        rfl
      exact ⟨(parse_claude_md text).2[index.toNat],
        List.getElem?_eq_getElem hlt,
        by rw [List.getElem?_set_self hlt, hgetD]⟩

/-- C10 witness: a negative index is rejected without touching the text,
and an in-range update on a two-section document returns `True`. -/
theorem c10_section_edits_inst :
    (update_section (("a").data) (-1) (("T").data) (("c").data)
        = ((("a").data), false) ∧
      delete_section (("a").data) (-1) = ((("a").data), false)) ∧
    (update_section (("# A\nx\n# B\ny").data) 0 (("T").data) (("c").data)).2
      = true := by
  refine ⟨(c10_section_edits (("a").data) (-1) (("T").data) (("c").data)).1
    (by decide), ?_⟩
  obtain ⟨secs', h1, _⟩ :=
    (c10_section_edits (("# A\nx\n# B\ny").data) 0 (("T").data)
      (("c").data)).2 (by decide)
  rw [h1]

end Hangar
